import Mathlib

/-!
Verification of the two batch scripts in this repository:
`src/parseGoogleKeepExportToMd.ts` (Google Keep JSON-to-Markdown converter)
and `src/recruiterContactScraping.ts` (LinkedIn contact scraper).

The JavaScript values manipulated by the note converter are arbitrary JSON
trees; they are embedded as the mutually inductive type `Json` below.  Each
definition is a direct translation of the corresponding TypeScript function;
the few external library calls (`localeCompare`, the `phone` npm package,
`Bun.sleep`) are modelled explicitly and documented at their definition.
-/

namespace Scripts

mutual
/-- A JSON value as produced by `JSON.parse` of a Google Keep note export.
Arrays and objects are given by the auxiliary mutual types so that all
recursion over them is structural.  Numbers are modelled as integers (the
fields the converter meets are timestamps and flags; no claim depends on
float behaviour). -/
inductive Json where
  | null : Json
  | bool : Bool → Json
  | num : Int → Json
  | str : String → Json
  | arr : JsonList → Json
  | obj : JsonFields → Json
deriving DecidableEq

/-- The element list of a JSON array. -/
inductive JsonList where
  | nil : JsonList
  | cons : Json → JsonList → JsonList
deriving DecidableEq

/-- The (ordered) fields of a JSON object, as enumerated by `Object.keys`. -/
inductive JsonFields where
  | nil : JsonFields
  | cons : String → Json → JsonFields → JsonFields
deriving DecidableEq
end

/-- `typeof v === "object" && v !== null` in JavaScript: true exactly for
arrays and objects.  Its complement is what `recursivelyGetProperties`
treats as a leaf and records in the metadata set. -/
def Json.isLeaf : Json → Bool
  | .arr _ => false
  | .obj _ => false
  | _ => true

/-- The keys of a JSON object, in enumeration order. -/
def JsonFields.keys : JsonFields → List String
  | .nil => []
  | .cons k _ rest => k :: rest.keys

/-- JavaScript property access `obj[key]` (objects have unique keys, so the
first match is the value). -/
def JsonFields.getField : JsonFields → String → Option Json
  | .nil, _ => none
  | .cons k v rest, key => if k = key then some v else rest.getField key

/-- `propertiesToIgnore` from `parseGoogleKeepExportToMd.ts`. -/
def propertiesToIgnore : List String :=
  ["color", "isTrashed", "isPinned", "isArchived", "textContent", "textContentHtml"]

/-- `orderedProperties` from `parseGoogleKeepExportToMd.ts`. -/
def orderedProperties : List String :=
  ["title", "createdTimestampUsec", "userEditedTimestampUsec"]

/-- The dotted-path construction
`propertyName ? propertyName + "." + property : property`
from `recursivelyGetProperties`.  The condition is JavaScript truthiness of
the accumulated path string: both `undefined` (the top-level call) and the
empty string are falsy and yield the bare property name. -/
def joinPath : Option String → String → String
  | none, p => p
  | some pre, p => if pre = "" then p else pre ++ "." ++ p

mutual
/-- The `for (const property of Object.keys(inputObj))` loop of
`recursivelyGetProperties`, over an object's field list.  The accumulator
set (a JS `Set` of fresh single-key records, hence insertion-ordered and
never deduplicating) is modelled by returning the emitted
`(currentPath, value)` pairs in emission order. -/
def flattenFields (ignore : List String) (pre : Option String) :
    JsonFields → List (String × Json)
  | .nil => []
  | .cons k v rest => flattenProp ignore pre k v ++ flattenFields ignore pre rest

/-- The same loop when `inputObj` is a JSON array: `Object.keys` enumerates
the element indices `"0"`, `"1"`, … as strings. -/
def flattenElems (ignore : List String) (pre : Option String) (i : Nat) :
    JsonList → List (String × Json)
  | .nil => []
  | .cons e rest =>
      flattenProp ignore pre (toString i) e ++ flattenElems ignore pre (i + 1) rest

/-- One iteration of the loop body for property `k` with value `v`:
skip if `k` is ignored; recurse when `v !== null && typeof v === "object"`
(arrays included); otherwise record the leaf at its dotted path. -/
def flattenProp (ignore : List String) (pre : Option String) (k : String) (v : Json) :
    List (String × Json) :=
  if k ∈ ignore then []
  else
    match v with
    | .arr es => flattenElems ignore (some (joinPath pre k)) 0 es
    | .obj kvs => flattenFields ignore (some (joinPath pre k)) kvs
    | leaf => [(joinPath pre k, leaf)]
end

/-- `recursivelyGetProperties(noteJson, new Set())`: flatten a note record
starting with no path prefix. -/
def recursivelyGetProperties (ignore : List String) (note : JsonFields) :
    List (String × Json) :=
  flattenFields ignore none note

/-- A token of the natural-order collation key: a maximal run of decimal
digits contributes its numeric value, every other character contributes
itself (already case-folded). -/
inductive NTok where
  | num : Nat → NTok
  | chr : Char → NTok
deriving DecidableEq

/-- Rank a token into `ℕ × ℕ` ordered lexicographically, mirroring the
primary-strength collation order used by `localeCompare`: characters below
`'0'` sort before every digit run, digit runs sort among themselves by
numeric value, and characters above `'9'` sort after. -/
def NTok.rank : NTok → Nat × Nat
  | .num n => (1, n)
  | .chr c => (if c.toNat < 48 then 0 else 2, c.toNat)

/-- Three-way comparison on `Nat`. -/
def cmpNat (a b : Nat) : Ordering :=
  if a < b then .lt else if b < a then .gt else .eq

/-- Three-way comparison of collation-key tokens via their ranks. -/
def NTok.cmp (t u : NTok) : Ordering :=
  (cmpNat t.rank.1 u.rank.1).then (cmpNat t.rank.2 u.rank.2)

/-- Lexicographic three-way comparison of token lists. -/
def lexCmp : List NTok → List NTok → Ordering
  | [], [] => .eq
  | [], _ :: _ => .lt
  | _ :: _, [] => .gt
  | a :: as, b :: bs =>
      match NTok.cmp a b with
      | .eq => lexCmp as bs
      | o => o

/-- Tokenizer for the collation key: `acc` carries the numeric value of the
digit run currently being read, if any. -/
def natKeyAux : Option Nat → List Char → List NTok
  | none, [] => []
  | some n, [] => [NTok.num n]
  | acc, c :: cs =>
      if c.isDigit then
        natKeyAux (some ((acc.getD 0) * 10 + (c.toNat - 48))) cs
      else
        (match acc with
          | none => []
          | some n => [NTok.num n]) ++ NTok.chr c.toLower :: natKeyAux none cs

/-- The collation key of a string: case-fold, then tokenize digit runs. -/
def natKey (s : String) : List NTok := natKeyAux none s.data

/-- Model of `aKey.localeCompare(bKey, undefined, { numeric: true,
sensitivity: "base" })` for the ASCII path strings the converter builds:
a case-insensitive comparison in which maximal digit runs compare by their
numeric value, returning a negative, zero or positive number.  This is the
one external library routine `orderMetadata` relies on. -/
def localeCompareModel (a b : String) : Int :=
  match lexCmp (natKey a) (natKey b) with
  | .lt => -1
  | .eq => 0
  | .gt => 1

/-- The `orderedProperties.forEach((prop, index) => orderMap.set(prop, index))`
pre-computation together with `orderMap.get(key) ?? -1`: a later `set` of the
same key overwrites an earlier one, so the accumulator keeps the last index
seen. -/
def lastIdxAux : List String → String → Nat → Int → Int
  | [], _, _, acc => acc
  | p :: ps, k, i, acc => lastIdxAux ps k (i + 1) (if p = k then Int.ofNat i else acc)

/-- `orderMap.get(key) ?? -1` for a priority-key list `props`. -/
def orderMapGet (props : List String) (k : String) : Int :=
  lastIdxAux props k 0 (-1)

/-- The comparator passed to `Array.from(metadata).sort` in `orderMetadata`,
acting on the single key of each metadata record (modelled as the first
component of the pair).  Returns `aSortKey - bSortKey` when both keys are
priority keys, `-1`/`1` when exactly one is, and the locale comparison
otherwise. -/
def cmpKeys (props : List String) (a b : String) : Int :=
  let aSortKey := orderMapGet props a
  let bSortKey := orderMapGet props b
  if aSortKey ≠ -1 ∧ bSortKey ≠ -1 then aSortKey - bSortKey
  else if aSortKey ≠ -1 then -1
  else if bSortKey ≠ -1 then 1
  else localeCompareModel a b

/-- "a comes before b" under the sort comparator: `cmp(a, b) < 0`. -/
def keyBefore (props : List String) (a b : String) : Prop :=
  cmpKeys props a b < 0

instance (props : List String) (a b : String) : Decidable (keyBefore props a b) := by
  unfold keyBefore; infer_instance

/-- `result[key] = item[key]` on a JavaScript object, as a property
creation/update on the object's internal insertion-ordered key list: an
existing key keeps its creation position and gets the new value, a new key
is appended.  (Enumeration order additionally hoists array-index keys; see
`jsEnumOrder`.) -/
def recordInsert (r : List (String × Json)) (k : String) (v : Json) :
    List (String × Json) :=
  if r.any (fun p => p.1 = k) then
    r.map (fun p => if p.1 = k then (k, v) else p)
  else r ++ [(k, v)]

/-- The numeric value of a decimal digit string. -/
def digitsVal (l : List Char) : Nat :=
  l.foldl (fun acc c => acc * 10 + (c.toNat - 48)) 0

/-- ECMAScript array-index property name: the canonical decimal form (no
leading zero except `"0"` itself) of an integer below `2^32 - 1`. -/
def isArrayIndex (s : String) : Bool :=
  match s.data with
  | [] => false
  | c :: cs =>
      (c :: cs).all Char.isDigit && (c != '0' || cs.isEmpty) &&
        decide (digitsVal (c :: cs) < 4294967295)

/-- ECMAScript own-property enumeration order (`Object.entries`): keys that
are array indices come first in ascending numeric order, followed by the
remaining string keys in property-creation order. -/
def jsEnumOrder (r : List (String × Json)) : List (String × Json) :=
  List.insertionSort (fun a b => digitsVal a.1.data ≤ digitsVal b.1.data)
      (r.filter (fun p => isArrayIndex p.1))
    ++ r.filter (fun p => !isArrayIndex p.1)

/-- `Array.from(metadata).sort(...)`: JS `Array.prototype.sort` is a
stable sort consistent with the comparator; insertion sort computes
exactly that permutation. -/
def sortedMetadata (props : List String) (metadata : List (String × Json)) :
    List (String × Json) :=
  List.insertionSort (fun a b => cmpKeys props a.1 b.1 ≤ 0) metadata

/-- The `for (const item of sorted) result[key] = item[key]` loop that
rebuilds the result record in sorted order. -/
def buildMetadataRecord (props : List String) (metadata : List (String × Json)) :
    List (String × Json) :=
  (sortedMetadata props metadata).foldl (fun r p => recordInsert r p.1 p.2) []

/-- `orderMetadata`: sort the metadata entries with the comparator,
rebuild the result record in sorted order, and return the
`Object.entries` view of the built record — array-index-like paths are
therefore hoisted ahead of everything else by the enumeration order. -/
def orderMetadata (props : List String) (metadata : List (String × Json)) :
    List (String × Json) :=
  jsEnumOrder (buildMetadataRecord props metadata)

/-- JavaScript truthiness of a possibly-absent JSON value, as used by
`if (isTrashed)` / `else if (isArchived)` in the main loop: `undefined`,
`null`, `false`, `0` and `""` are falsy, everything else is truthy. -/
def truthy : Option Json → Bool
  | none => false
  | some .null => false
  | some (.bool b) => b
  | some (.num n) => n ≠ 0
  | some (.str s) => s ≠ ""
  | some (.arr _) => true
  | some (.obj _) => true

/-- The three destination subdirectories of the note converter. -/
inductive Category where
  | trash : Category
  | archive : Category
  | unsorted : Category
deriving DecidableEq

/-- The routing `if (isTrashed) … else if (isArchived) … else …` of the
main loop, applied to a note record (`const { isArchived, isTrashed } =
noteJson`). -/
def classifyNote (note : JsonFields) : Category :=
  if truthy (note.getField "isTrashed") then .trash
  else if truthy (note.getField "isArchived") then .archive
  else .unsorted

/-- The three mutable counters of the converter run. -/
structure RunCounts where
  notesTrashedCount : Nat
  notesArchivedCount : Nat
  notesUnsortedCount : Nat
deriving DecidableEq

/-- The counter updates performed by the main loop over the processed
notes: each note bumps exactly the counter of its category. -/
def countLoop : List JsonFields → RunCounts → RunCounts
  | [], c => c
  | n :: rest, c =>
      match classifyNote n with
      | .trash => countLoop rest { c with notesTrashedCount := c.notesTrashedCount + 1 }
      | .archive => countLoop rest { c with notesArchivedCount := c.notesArchivedCount + 1 }
      | .unsorted => countLoop rest { c with notesUnsortedCount := c.notesUnsortedCount + 1 }

/-- The three `console.log` lines printed after the loop: the total number
of discovered `.json` files, the archived counter and the trashed counter.
(The unsorted counter does not appear in the source's report.) -/
def finalReport (jsonNotesLength : Nat) (c : RunCounts) : List String :=
  ["Notes total: " ++ toString jsonNotesLength,
   "Notes archived: " ++ toString c.notesArchivedCount,
   "Notes trashed: " ++ toString c.notesTrashedCount]

/-- `note.endsWith(".json")`: the file name ends with the given suffix,
stated on the character lists of the strings. -/
def endsWithJson (f : String) : Bool :=
  ((".json" : String).data).isSuffixOf f.data

/-- `notes.filter((note) => note.endsWith(".json"))`. -/
def jsonNotesOf (files : List String) : List String :=
  files.filter endsWithJson

/-- Substring occurrence test on character lists (used to state that a
report line does or does not mention a counter). -/
def isSubChars (needle : List Char) : List Char → Bool
  | [] => needle.isEmpty
  | c :: cs => needle.isPrefixOf (c :: cs) || isSubChars needle cs

/-- `testOneNote ? [jsonNotes[0]] : jsonNotes`: when the single-note switch
is on, the list holds the possibly-absent (`undefined`) first element. -/
def notesToProcessOf (files : List String) (testOne : Bool) : List (Option String) :=
  if testOne then [(jsonNotesOf files).head?] else (jsonNotesOf files).map some

/-- `Bun.file(noteInputDir + "/" + note).json()`, with the directory's
contents modelled by the listing `files`: reading a name present in the
directory succeeds, reading any other name rejects with an ENOENT error
that aborts the run (the promise rejection is not caught). -/
def readNote (files : List String) (name : String) : Except String Unit :=
  if name ∈ files then .ok () else .error ("ENOENT: " ++ name)

/-- The converter's main loop over `notesToProcess`, counting the notes it
processes.  Interpolating the absent element into the path renders the
string `"undefined"`, exactly as JavaScript template literals do. -/
def processNotes (files : List String) : List (Option String) → Except String Nat
  | [] => .ok 0
  | nOpt :: rest =>
      let name := match nOpt with | none => "undefined" | some s => s
      match readNote files name with
      | .error e => .error e
      | .ok _ =>
          match processNotes files rest with
          | .ok n => .ok (n + 1)
          | .error e => .error e

/-- A full converter run over a directory listing: filter the `.json`
files, apply the single-note switch, process the resulting list. -/
def runConverter (files : List String) (testOne : Bool) : Except String Nat :=
  processNotes files (notesToProcessOf files testOne)

/-- Model of the result of the npm `phone` package's `phone(phoneNumber)`
call in `formatPhoneNumber`: a validity flag and, when valid, the number
normalized to E.164 form (a `+`, the country calling code, then the
national digits). -/
structure PhoneParseResult where
  isValid : Bool
  phoneNumber : String
deriving DecidableEq

/-- The first `replace` of `formatPhoneNumber`: strip one leading `"+1"`
if present (the regex is anchored at the start of the string). -/
def stripUSPrefix : List Char → List Char
  | '+' :: '1' :: rest => rest
  | s => s

/-- The replacement template `"($1) $2-$3"` applied to a 10-digit match
split into groups of 3, 3 and 4 digits, followed by the unmatched tail. -/
def formatTenRun (run : List Char) (rest : List Char) : List Char :=
  '(' :: run.take 3 ++ ')' :: ' ' :: ((run.drop 3).take 3 ++ '-' :: run.drop 6 ++ rest)

/-- The second `replace` of `formatPhoneNumber`, whose pattern is three
capture groups of 3, 3 and 4 digits: scan left to right for the first
position where ten consecutive decimal digits start, and rewrite that run
with the template, keeping everything before and after it. -/
def replaceFirstTenDigits : List Char → List Char
  | [] => []
  | c :: cs =>
      let first10 := (c :: cs).take 10
      if first10.length = 10 ∧ first10.all Char.isDigit then
        formatTenRun first10 ((c :: cs).drop 10)
      else
        c :: replaceFirstTenDigits cs

/-- Whether some position of the string starts a run of ten consecutive
decimal digits (the condition under which the second `replace` fires). -/
def hasTenDigitRun : List Char → Bool
  | [] => false
  | c :: cs =>
      (((c :: cs).take 10).length = 10 ∧ ((c :: cs).take 10).all Char.isDigit)
        || hasTenDigitRun cs

/-- `formatPhoneNumber` from `recruiterContactScraping.ts`: `null` for an
invalid number, otherwise the two chained `replace` calls applied to the
normalized number. -/
def formatPhoneNumber (parsingRes : PhoneParseResult) : Option String :=
  if parsingRes.isValid = false then none
  else some (String.mk (replaceFirstTenDigits (stripUSPrefix parsingRes.phoneNumber.data)))

/-- The `phones` field construction at the push site:
`phones?.map((p) => formatPhoneNumber(p)).filter((p) => p !== null)`. -/
def phonesOf (raw : List PhoneParseResult) : List String :=
  (raw.map formatPhoneNumber).filterMap id

/-- JavaScript truthiness of a possibly-absent string field (`undefined`
and `""` are falsy), as used by `contact.first_name && contact.last_name`
and the work-experience guards. -/
def jsStrTruthy : Option String → Bool
  | none => false
  | some s => s ≠ ""

/-- One entry of `contact.work_experience`. -/
structure WorkExp where
  company : Option String
  position : Option String

/-- The fields of a Unipile profile lookup result that the push site reads
(after the `provider === "LINKEDIN" && typeof public_identifier ===
"string"` guard, so the identifier is a string).  Phone strings appear
already paired with their `phone()` parse result. -/
structure Contact where
  first_name : Option String
  last_name : Option String
  public_identifier : String
  contact_info_emails : Option (List String)
  contact_info_phones : Option (List PhoneParseResult)
  work_experience : List WorkExp

/-- One record of the scraper's output array. -/
structure OutputItem where
  fullName : Option String
  profileUrl : Option String
  emails : List String
  phones : List String
  currentCompanyRole : Option String

/-- The `profileUrl` expression at the push site: a template literal
interpolating the public identifier, with `|| null` mapping a falsy (i.e.
empty) string to `null`. -/
def buildProfileUrl (publicIdentifier : String) : Option String :=
  let s := "https://www.linkedin.com/in/" ++ publicIdentifier
  if s = "" then none else some s

/-- The record pushed onto `outputData` for a contact that passed the
provider/identifier guard. -/
def mkOutputItem (c : Contact) : OutputItem where
  fullName :=
    if jsStrTruthy c.first_name && jsStrTruthy c.last_name then
      some (c.first_name.getD "" ++ " " ++ c.last_name.getD "")
    else none
  profileUrl := buildProfileUrl c.public_identifier
  emails := (c.contact_info_emails.getD []).map String.toLower
  phones := phonesOf (c.contact_info_phones.getD [])
  currentCompanyRole :=
    match c.work_experience.head? with
    | some w =>
        if jsStrTruthy w.company && jsStrTruthy w.position then
          some (w.company.getD "" ++ " - " ++ w.position.getD "")
        else none
    | none => none

/-- The observable events of one iteration of the scraper's main loop, in
program order. -/
inductive Ev where
  | invalidUrlLog : Ev
  | lookup : Ev
  | recordAdded : Ev
  | invalidRecordWarn : Ev
  | errorLog : Ev
  | sleep : Ev
deriving DecidableEq

/-- How the `unipileClient.users.getProfile` call of an iteration ends:
the promise rejects (`throws`), or it resolves to a contact that passes
(`valid`) or fails (`invalid`) the provider/identifier guard. -/
inductive FetchOutcome where
  | throws : FetchOutcome
  | valid : FetchOutcome
  | invalid : FetchOutcome
deriving DecidableEq

/-- One input URL: either `url.split("/in/")[1]` is absent (no public
identifier, the record is skipped), or the record is processed with the
given fetch outcome. -/
inductive UrlStep where
  | noIdent : UrlStep
  | ident : FetchOutcome → UrlStep
deriving DecidableEq

/-- The event trace of one loop iteration.  The `await Bun.sleep(5000 +
Math.random() * 1000)` statement sits inside the `try` block after the
push/warn, so it runs only when `getProfile` resolved; a rejection jumps
straight to the `catch` logging. -/
def iterEvents : UrlStep → List Ev
  | .noIdent => [.invalidUrlLog]
  | .ident .throws => [.lookup, .errorLog]
  | .ident .valid => [.lookup, .recordAdded, .sleep]
  | .ident .invalid => [.lookup, .invalidRecordWarn, .sleep]

/-- The event trace of a whole scraper run over its input URL list. -/
def runEvents (steps : List UrlStep) : List Ev :=
  steps.flatMap iterEvents

/-! ### Invariants of the metadata flattener -/

mutual
/-- Every pair emitted while flattening an object's fields carries a leaf
value: intermediate objects and arrays are never recorded. -/
theorem flattenFields_isLeaf (ignore : List String) (pre : Option String) :
    ∀ (kvs : JsonFields), ∀ p ∈ flattenFields ignore pre kvs, p.2.isLeaf = true
  | .nil => by simp [flattenFields]
  | .cons k v rest => by
      intro p hp
      rw [flattenFields] at hp
      rcases List.mem_append.mp hp with h | h
      · exact flattenProp_isLeaf ignore pre k v p h
      · exact flattenFields_isLeaf ignore pre rest p h

/-- Every pair emitted while flattening an array's elements carries a leaf
value. -/
theorem flattenElems_isLeaf (ignore : List String) (pre : Option String) :
    ∀ (es : JsonList) (i : Nat), ∀ p ∈ flattenElems ignore pre i es, p.2.isLeaf = true
  | .nil => by simp [flattenElems]
  | .cons e rest => by
      intro i p hp
      rw [flattenElems] at hp
      rcases List.mem_append.mp hp with h | h
      · exact flattenProp_isLeaf ignore pre (toString i) e p h
      · exact flattenElems_isLeaf ignore pre rest (i + 1) p h

/-- Every pair emitted for a single property carries a leaf value. -/
theorem flattenProp_isLeaf (ignore : List String) (pre : Option String) (k : String) :
    ∀ (v : Json), ∀ p ∈ flattenProp ignore pre k v, p.2.isLeaf = true
  | .arr es => by
      intro p hp
      by_cases hk : k ∈ ignore
      · simp [flattenProp, hk] at hp
      · rw [flattenProp, if_neg hk] at hp
        exact flattenElems_isLeaf ignore (some (joinPath pre k)) es 0 p hp
  | .obj kvs => by
      intro p hp
      by_cases hk : k ∈ ignore
      · simp [flattenProp, hk] at hp
      · rw [flattenProp, if_neg hk] at hp
        exact flattenFields_isLeaf ignore (some (joinPath pre k)) kvs p hp
  | .null => by
      intro p hp
      by_cases hk : k ∈ ignore <;> simp [flattenProp, hk] at hp
      simp [hp, Json.isLeaf]
  | .bool b => by
      intro p hp
      by_cases hk : k ∈ ignore <;> simp [flattenProp, hk] at hp
      simp [hp, Json.isLeaf]
  | .num n => by
      intro p hp
      by_cases hk : k ∈ ignore <;> simp [flattenProp, hk] at hp
      simp [hp, Json.isLeaf]
  | .str s => by
      intro p hp
      by_cases hk : k ∈ ignore <;> simp [flattenProp, hk] at hp
      simp [hp, Json.isLeaf]
end

/-- A dotted extension is never the empty string. -/
theorem append_dot_ne_empty (q s : String) : q ++ "." ++ s ≠ "" := by
  intro h
  have h2 : (q ++ "." ++ s).data = [] := by rw [h]
  rw [String.data_append, String.data_append] at h2
  rcases List.append_eq_nil.mp h2 with ⟨h3, _⟩
  rcases List.append_eq_nil.mp h3 with ⟨_, h4⟩
  exact absurd h4 (by decide)

mutual
/-- Under a truthy (non-empty) path prefix `q`, every emitted path extends
`q` by a dot. -/
theorem flattenFields_path_ext (ignore : List String) (q : String) (hq : q ≠ "") :
    ∀ (kvs : JsonFields), ∀ p ∈ flattenFields ignore (some q) kvs,
      ∃ s, p.1 = q ++ "." ++ s
  | .nil => by simp [flattenFields]
  | .cons k v rest => by
      intro p hp
      rw [flattenFields] at hp
      have hj : joinPath (some q) k = q ++ "." ++ k := by simp [joinPath, hq]
      rcases List.mem_append.mp hp with h | h
      · rcases flattenProp_path_shape ignore (some q) k
            (hj ▸ append_dot_ne_empty q k) v p h with h1 | ⟨s, h1⟩
        · exact ⟨k, by rw [h1, hj]⟩
        · exact ⟨k ++ "." ++ s, by simp [h1, hj, String.append_assoc]⟩
      · exact flattenFields_path_ext ignore q hq rest p h

/-- Under a truthy (non-empty) path prefix `q`, every path emitted for
array elements extends `q` by a dot. -/
theorem flattenElems_path_ext (ignore : List String) (q : String) (hq : q ≠ "") :
    ∀ (es : JsonList) (i : Nat), ∀ p ∈ flattenElems ignore (some q) i es,
      ∃ s, p.1 = q ++ "." ++ s
  | .nil => by simp [flattenElems]
  | .cons e rest => by
      intro i p hp
      rw [flattenElems] at hp
      have hj : joinPath (some q) (toString i) = q ++ "." ++ toString i := by
        simp [joinPath, hq]
      rcases List.mem_append.mp hp with h | h
      · rcases flattenProp_path_shape ignore (some q) (toString i)
            (hj ▸ append_dot_ne_empty q (toString i)) e p h with h1 | ⟨s, h1⟩
        · exact ⟨toString i, by rw [h1, hj]⟩
        · exact ⟨toString i ++ "." ++ s, by simp [h1, hj, String.append_assoc]⟩
      · exact flattenElems_path_ext ignore q hq rest (i + 1) p h

/-- When property `k`'s dotted path is truthy (non-empty), every path
emitted for `k` is that dotted path itself or a strict dotted descendant
of it. -/
theorem flattenProp_path_shape (ignore : List String) (pre : Option String) (k : String)
    (hpk : joinPath pre k ≠ "") :
    ∀ (v : Json), ∀ p ∈ flattenProp ignore pre k v,
      p.1 = joinPath pre k ∨ ∃ s, p.1 = joinPath pre k ++ "." ++ s
  | .arr es => by
      intro p hp
      by_cases hk : k ∈ ignore
      · simp [flattenProp, hk] at hp
      · rw [flattenProp, if_neg hk] at hp
        exact .inr (flattenElems_path_ext ignore (joinPath pre k) hpk es 0 p hp)
  | .obj kvs => by
      intro p hp
      by_cases hk : k ∈ ignore
      · simp [flattenProp, hk] at hp
      · rw [flattenProp, if_neg hk] at hp
        exact .inr (flattenFields_path_ext ignore (joinPath pre k) hpk kvs p hp)
  | .null => by
      intro p hp
      by_cases hk : k ∈ ignore <;> simp [flattenProp, hk] at hp
      exact .inl (by simp [hp])
  | .bool b => by
      intro p hp
      by_cases hk : k ∈ ignore <;> simp [flattenProp, hk] at hp
      exact .inl (by simp [hp])
  | .num n => by
      intro p hp
      by_cases hk : k ∈ ignore <;> simp [flattenProp, hk] at hp
      exact .inl (by simp [hp])
  | .str s => by
      intro p hp
      by_cases hk : k ∈ ignore <;> simp [flattenProp, hk] at hp
      exact .inl (by simp [hp])
end

/-- For a note without an empty-string top-level property name (an empty
name is falsy in the path construction and would splice its children into
the top level), every entry of a flattened note comes from some
non-ignored top-level property: its path is that property's name or a
dotted descendant of it. -/
theorem recursivelyGetProperties_provenance (ignore : List String) :
    ∀ (note : JsonFields), "" ∉ note.keys →
      ∀ p ∈ recursivelyGetProperties ignore note,
      ∃ k, k ∈ note.keys ∧ k ∉ ignore ∧ (p.1 = k ∨ ∃ s, p.1 = k ++ "." ++ s)
  | .nil => by
      intro _ p hp
      simp [recursivelyGetProperties, flattenFields] at hp
  | .cons k v rest => by
      intro hemp p hp
      rw [recursivelyGetProperties, flattenFields] at hp
      have hkne : k ≠ "" := fun h => hemp (by simp [JsonFields.keys, h])
      have hrest : "" ∉ rest.keys := fun h => hemp (by simp [JsonFields.keys, h])
      rcases List.mem_append.mp hp with h | h
      · by_cases hk : k ∈ ignore
        · simp [flattenProp.eq_def, hk] at h
        · refine ⟨k, by simp [JsonFields.keys], hk, ?_⟩
          simpa [joinPath] using flattenProp_path_shape ignore none k hkne v p h
      · rcases recursivelyGetProperties_provenance ignore rest hrest p h with ⟨k1, hk1, hk2, hk3⟩
        exact ⟨k1, by simp [JsonFields.keys, hk1], hk2, hk3⟩

/-! ### C1: array-valued fields in the flattener -/

/-- C1 (counterexample): the claim that an array-valued field is a leaf —
yielding exactly one entry whose path is the field's own dotted path — is
false.  For the record with the single field `"a"` holding the array
`["x"]`, `recursivelyGetProperties` (with the source's ignore list) emits
the single entry `("a.0", "x")`: it descends into the array, and no entry
with path `"a"` exists. -/
theorem C1_array_not_leaf_counterexample :
    recursivelyGetProperties propertiesToIgnore
        (.cons "a" (.arr (.cons (.str "x") .nil)) .nil) = [("a.0", Json.str "x")] ∧
    "a" ∉ (recursivelyGetProperties propertiesToIgnore
        (.cons "a" (.arr (.cons (.str "x") .nil)) .nil)).map Prod.fst := by
  exact ⟨rfl, by decide⟩

/-- C1 (amended): an array-valued field is *not* treated as a leaf:
`typeof value === "object"` holds for arrays, so flatten descends into it
like an object, with the element index as the next dotted-path segment,
and emits one entry per leaf (non-object, non-array) value reached — never
an entry for the array itself.  First conjunct: every emitted value is a
leaf.  Second conjunct: the field `"a"` holding `["x", ["y"]]` yields
exactly `("a.0", "x")` and `("a.1.0", "y")`. -/
theorem C1_array_fields_descended :
    (∀ (ignore : List String) (note : JsonFields),
        ∀ p ∈ recursivelyGetProperties ignore note, p.2.isLeaf = true) ∧
    recursivelyGetProperties []
        (.cons "a" (.arr (.cons (.str "x") (.cons (.arr (.cons (.str "y") .nil)) .nil))) .nil)
      = [("a.0", Json.str "x"), ("a.1.0", Json.str "y")] :=
  ⟨fun ignore note p hp => flattenFields_isLeaf ignore none note p hp, rfl⟩

/-- C1 (witness): the leaf invariant applied to the entry `("a.0", "x")`
of the concrete flattening. -/
theorem C1_array_fields_descended_witness : (Json.str "x").isLeaf = true :=
  C1_array_fields_descended.1 [] (.cons "a" (.arr (.cons (.str "x") .nil)) .nil)
    ("a.0", Json.str "x") (by decide)

/-! ### C6: ignored properties are skipped entirely -/

/-- C6: for every note record and every property name `k` on the ignore
list — `k` a plain dot-free name, the record having no empty-string
top-level name (falsy in the path construction) and no other key
masquerading as `k` plus a dot (dotted paths are unambiguous exactly
under these provisos) — the flattened output contains no entry whose path
is `k` and none whose path is a dotted descendant of `k`, even when the
ignored field holds an object. -/
theorem C6_ignored_property_excluded (ignore : List String) (note : JsonFields)
    (k : String) (hk : k ∈ ignore) (hdot : '.' ∉ k.data)
    (hempty : "" ∉ note.keys)
    (hkeys : ∀ k1 ∈ note.keys, ((k ++ ".").data).isPrefixOf k1.data = false) :
    ∀ p ∈ recursivelyGetProperties ignore note,
      p.1 ≠ k ∧ ((k ++ ".").data).isPrefixOf p.1.data = false := by
  intro p hp
  obtain ⟨k1, hmem, hnig, hshape⟩ :=
    recursivelyGetProperties_provenance ignore note hempty p hp
  have hkne : k1 ≠ k := fun h => hnig (h ▸ hk)
  have hdata : (k ++ ".").data = k.data ++ ['.'] := by
    rw [String.data_append]
  rcases hshape with h1 | ⟨s, h1⟩
  · exact ⟨h1 ▸ hkne, h1 ▸ hkeys k1 hmem⟩
  · have hpdata : p.1.data = (k1.data ++ ['.']) ++ s.data := by
      rw [h1, String.data_append]; rfl
    constructor
    · intro heq
      apply hdot
      have : k.data = (k1.data ++ ['.']) ++ s.data := by rw [← heq, hpdata]
      rw [this]
      exact List.mem_append.mpr (.inl (List.mem_append.mpr (.inr (by decide))))
    · by_contra hbad
      rw [Bool.not_eq_false, List.isPrefixOf_iff_prefix, hdata, hpdata] at hbad
      have hk1pre : k1.data ++ ['.'] <+: (k1.data ++ ['.']) ++ s.data :=
        List.prefix_append _ _
      have hk1raw : ¬ (k.data ++ ['.']) <+: k1.data := by
        have hfalse := hkeys k1 hmem
        rw [← hdata]
        intro hcon
        rw [List.isPrefixOf_iff_prefix.mpr hcon] at hfalse
        exact Bool.true_eq_false.mp hfalse
      rcases Nat.lt_trichotomy k.data.length k1.data.length with hl | hl | hl
      · exact hk1raw (List.prefix_of_prefix_length_le hbad
          (by rw [List.append_assoc]; exact List.prefix_append _ _)
          (by simp only [List.length_append, List.length_cons, List.length_nil]; omega))
      · have heq2 : k.data ++ ['.'] = k1.data ++ ['.'] :=
          (List.prefix_of_prefix_length_le hbad hk1pre
            (by simp only [List.length_append, List.length_cons, List.length_nil]; omega)).eq_of_length
            (by simp only [List.length_append, List.length_cons, List.length_nil]; omega)
        have : k = k1 := String.ext (List.append_cancel_right heq2)
        exact hkne (this ▸ rfl)
      · have hsub : k1.data ++ ['.'] <+: k.data ++ ['.'] :=
          List.prefix_of_prefix_length_le hk1pre hbad
            (by simp only [List.length_append, List.length_cons, List.length_nil]; omega)
        have hsub2 : k1.data ++ ['.'] <+: k.data :=
          List.prefix_of_prefix_length_le hsub (List.prefix_append _ _)
            (by simp only [List.length_append, List.length_cons, List.length_nil]; omega)
        exact hdot (hsub2.subset (List.mem_append.mpr (.inr (by decide))))

/-- C6 (witness): with the source's ignore list, the record
`\x7b color: \x7b x: 1 \x7d, title: "t" \x7d` flattens without any `color`
entry; its single emitted path `"title"` satisfies both exclusions. -/
theorem C6_ignored_property_excluded_witness :
    ("title" : String) ≠ "color" ∧
    (("color" ++ "." : String).data).isPrefixOf ("title" : String).data = false := by
  have := C6_ignored_property_excluded propertiesToIgnore
    (.cons "color" (.obj (.cons "x" (.num 1) .nil)) (.cons "title" (.str "t") .nil))
    "color" (by decide) (by decide) (by decide) (by decide)
    ("title", Json.str "t") (by decide)
  exact this

/-! ### C5: pacing delay placement in the scraper loop -/

/-- C5 (counterexample): the claim that the randomized pacing delay occurs
after a processed record even when the lookup throws is false.  For a run
whose single URL yields an identifier but whose lookup rejects, the trace
is lookup-then-error-log and contains no sleep: the `Bun.sleep` call sits
inside the `try` block, so the rejection jumps past it into `catch`. -/
theorem C5_sleep_skipped_on_throw :
    runEvents [UrlStep.ident .throws] = [Ev.lookup, Ev.errorLog] ∧
    Ev.sleep ∉ runEvents [UrlStep.ident .throws] :=
  ⟨rfl, by decide⟩

/-- C5 (amended): the pacing delay occurs after every processed record
whose lookup resolves — both when the record is added and when it is
rejected by the guard — but not when the lookup throws (and not for
skipped invalid URLs). -/
theorem C5_pacing_after_resolved_lookups :
    (∀ o : FetchOutcome, o ≠ .throws → (iterEvents (.ident o)).getLast? = some Ev.sleep) ∧
    Ev.sleep ∉ iterEvents (.ident .throws) ∧
    Ev.sleep ∉ iterEvents .noIdent := by
  refine ⟨?_, by decide, by decide⟩
  intro o ho
  cases o with
  | throws => exact absurd rfl ho
  | valid => rfl
  | invalid => rfl

/-- C5 (witness): a successful lookup ends its iteration with the sleep. -/
theorem C5_pacing_witness :
    (iterEvents (.ident .valid)).getLast? = some Ev.sleep :=
  C5_pacing_after_resolved_lookups.1 .valid (by decide)

/-! ### C7: note classification -/

/-- C7: with boolean `isTrashed`/`isArchived` fields, a processed note is
routed to exactly one category, trashed taking precedence over archived:
`isTrashed = true` routes to trash regardless of `isArchived`; otherwise
`isArchived = true` routes to archive; otherwise to unsorted. -/
theorem C7_classification (t a : Bool) (note : JsonFields)
    (ht : note.getField "isTrashed" = some (.bool t))
    (ha : note.getField "isArchived" = some (.bool a)) :
    classifyNote note =
      if t then Category.trash else if a then Category.archive else Category.unsorted := by
  unfold classifyNote
  rw [ht, ha]
  cases t <;> cases a <;> simp [truthy]

/-- C7 (witness): a note with both flags true is routed to trash, never
archive. -/
theorem C7_classification_witness :
    classifyNote (.cons "isTrashed" (.bool true)
      (.cons "isArchived" (.bool true) .nil)) = Category.trash :=
  C7_classification true true
    (.cons "isTrashed" (.bool true) (.cons "isArchived" (.bool true) .nil)) rfl rfl

/-! ### C8: counters and the end-of-run report -/

/-- The counters after the loop, starting from zero, count exactly the
notes routed to each category. -/
theorem countLoop_spec (notes : List JsonFields) : ∀ c : RunCounts,
    countLoop notes c =
      ⟨c.notesTrashedCount + notes.countP (fun n => classifyNote n == Category.trash),
       c.notesArchivedCount + notes.countP (fun n => classifyNote n == Category.archive),
       c.notesUnsortedCount + notes.countP (fun n => classifyNote n == Category.unsorted)⟩ := by
  induction notes with
  | nil => intro c; simp [countLoop]
  | cons n rest ih =>
      intro c
      rcases h : classifyNote n with _ | _ | _ <;>
        · simp [countLoop, h, ih, List.countP_cons, RunCounts.mk.injEq]
          omega

/-- C8 (counterexample): the claim that all three per-category counters
are reported is false.  A run over one unclassified (hence unsorted) note
accumulates an unsorted count of 1, yet the end-of-run report consists of
exactly the total, archived and trashed lines — no line mentions the
unsorted counter. -/
theorem C8_unsorted_not_reported :
    countLoop [JsonFields.nil] ⟨0, 0, 0⟩ = ⟨0, 0, 1⟩ ∧
    finalReport 1 (countLoop [JsonFields.nil] ⟨0, 0, 0⟩) =
      ["Notes total: 1", "Notes archived: 0", "Notes trashed: 0"] ∧
    (finalReport 1 (countLoop [JsonFields.nil] ⟨0, 0, 0⟩)).all
      (fun line => !(isSubChars ("unsorted" : String).data line.data)) = true :=
  ⟨rfl, rfl, by decide⟩

/-- C8 (amended): the per-category counters accumulated across the run
each equal the number of processed notes routed to that category, and the
end-of-run report prints the total and the archived and trashed counters —
the unsorted counter is accumulated but never reported. -/
theorem C8_counters_reported (notes : List JsonFields) (total : Nat) :
    countLoop notes ⟨0, 0, 0⟩ =
      ⟨notes.countP (fun n => classifyNote n == Category.trash),
       notes.countP (fun n => classifyNote n == Category.archive),
       notes.countP (fun n => classifyNote n == Category.unsorted)⟩ ∧
    finalReport total (countLoop notes ⟨0, 0, 0⟩) =
      ["Notes total: " ++ toString total,
       "Notes archived: " ++ toString (notes.countP (fun n => classifyNote n == Category.archive)),
       "Notes trashed: " ++ toString (notes.countP (fun n => classifyNote n == Category.trash))] := by
  have h := countLoop_spec notes ⟨0, 0, 0⟩
  simp only [Nat.zero_add] at h
  exact ⟨h, by rw [h]; rfl⟩

/-! ### C9: the profile URL is never null -/

/-- C9: for every contact record added to the output, the `profileUrl`
field is the non-null string `https://www.linkedin.com/in/` followed by
the public identifier: the template literal is never empty, so the
`|| null` alternative can never be produced. -/
theorem C9_profileUrl_never_null (c : Contact) :
    (mkOutputItem c).profileUrl
        = some ("https://www.linkedin.com/in/" ++ c.public_identifier) ∧
    (mkOutputItem c).profileUrl ≠ none := by
  have hform : (mkOutputItem c).profileUrl
      = some ("https://www.linkedin.com/in/" ++ c.public_identifier) := by
    show buildProfileUrl c.public_identifier = _
    unfold buildProfileUrl
    rw [if_neg]
    intro h
    have hd : ("https://www.linkedin.com/in/" ++ c.public_identifier).data
        = ("" : String).data := by rw [h]
    rw [String.data_append] at hd
    rcases List.append_eq_nil.mp hd with ⟨h1, _⟩
    exact absurd h1 (by decide)
  exact ⟨hform, by rw [hform]; exact Option.some_ne_none _⟩

/-! ### C10: single-note mode on an empty directory -/

/-- C10: when the single-note switch is on and the directory holds no
`.json` file, the run does not complete having processed zero notes:
`jsonNotes[0]` is absent, the interpolated read path names the
nonexistent file `undefined`, and the uncaught rejection aborts the run
with an error. -/
theorem C10_testOneNote_empty_aborts (files : List String)
    (hjson : jsonNotesOf files = []) (hundef : "undefined" ∉ files) :
    runConverter files true = .error "ENOENT: undefined" ∧
    runConverter files true ≠ .ok 0 := by
  have hrun : runConverter files true = .error "ENOENT: undefined" := by
    unfold runConverter notesToProcessOf
    rw [if_pos rfl, hjson]
    show processNotes files [none] = _
    simp [processNotes, readNote, hundef]
  refine ⟨hrun, by rw [hrun]; intro h; cases h⟩

/-- C10 (witness): a directory holding only `a.txt`. -/
theorem C10_testOneNote_empty_aborts_witness :
    runConverter ["a.txt"] true = .error "ENOENT: undefined" ∧
    runConverter ["a.txt"] true ≠ .ok 0 :=
  C10_testOneNote_empty_aborts ["a.txt"] (by decide) (by decide)

/-! ### Properties of the ordering comparator -/

theorem cmpNat_lt_iff (a b : Nat) : cmpNat a b = .lt ↔ a < b := by
  unfold cmpNat
  split_ifs with h1 h2 <;> simp_all

theorem cmpNat_eq_iff (a b : Nat) : cmpNat a b = .eq ↔ a = b := by
  unfold cmpNat
  split_ifs with h1 h2 <;> simp_all <;> omega

theorem cmpNat_swap (a b : Nat) : cmpNat a b = (cmpNat b a).swap := by
  rcases Nat.lt_trichotomy a b with h | h | h
  · rw [(cmpNat_lt_iff a b).mpr h]
    rw [show cmpNat b a = .gt from by unfold cmpNat; rw [if_neg (Nat.lt_asymm h), if_pos h]]
    rfl
  · subst h
    rw [(cmpNat_eq_iff a a).mpr rfl]
    rfl
  · rw [(cmpNat_lt_iff b a).mpr h]
    rw [show cmpNat a b = .gt from by unfold cmpNat; rw [if_neg (Nat.lt_asymm h), if_pos h]]
    rfl

theorem ordering_then_swap (o1 o2 : Ordering) : (o1.then o2).swap = o1.swap.then o2.swap := by
  cases o1 <;> cases o2 <;> rfl

theorem ordering_then_eq_iff (o1 o2 : Ordering) :
    o1.then o2 = .eq ↔ o1 = .eq ∧ o2 = .eq := by
  cases o1 <;> cases o2 <;> simp [Ordering.then]

theorem NTok.cmp_swap (t u : NTok) : NTok.cmp t u = (NTok.cmp u t).swap := by
  unfold NTok.cmp
  rw [ordering_then_swap, ← cmpNat_swap, ← cmpNat_swap]

theorem NTok.rank_injective {t u : NTok} (h : t.rank = u.rank) : t = u := by
  cases t with
  | num m =>
      cases u with
      | num n => simp [NTok.rank] at h; rw [h]
      | chr c => simp [NTok.rank] at h; split at h <;> simp at h
  | chr c =>
      cases u with
      | num n => simp [NTok.rank] at h; split at h <;> simp at h
      | chr d =>
          simp [NTok.rank] at h
          exact congrArg NTok.chr (Char.ext (UInt32.toNat.inj h.2))

theorem NTok.cmp_eq_iff (t u : NTok) : NTok.cmp t u = .eq ↔ t = u := by
  constructor
  · intro h
    rw [NTok.cmp, ordering_then_eq_iff] at h
    exact NTok.rank_injective
      (Prod.ext ((cmpNat_eq_iff _ _).mp h.1) ((cmpNat_eq_iff _ _).mp h.2))
  · intro h
    rw [h, NTok.cmp, (cmpNat_eq_iff _ _).mpr rfl, (cmpNat_eq_iff _ _).mpr rfl]
    rfl

theorem NTok.cmp_lt_iff (t u : NTok) : NTok.cmp t u = .lt ↔
    (t.rank.1 < u.rank.1 ∨ (t.rank.1 = u.rank.1 ∧ t.rank.2 < u.rank.2)) := by
  rw [NTok.cmp]
  rcases Nat.lt_trichotomy t.rank.1 u.rank.1 with h | h | h
  · rw [(cmpNat_lt_iff _ _).mpr h]
    simp [Ordering.then, h]
  · rw [h, (cmpNat_eq_iff u.rank.1 u.rank.1).mpr rfl]
    simp [Ordering.then, h, cmpNat_lt_iff]
  · rw [show cmpNat t.rank.1 u.rank.1 = .gt from by
      unfold cmpNat; rw [if_neg (Nat.lt_asymm h), if_pos h]]
    simp [Ordering.then]
    omega

theorem NTok.cmp_lt_trans {t u v : NTok}
    (h1 : NTok.cmp t u = .lt) (h2 : NTok.cmp u v = .lt) : NTok.cmp t v = .lt := by
  rw [NTok.cmp_lt_iff] at h1 h2 ⊢
  omega

theorem lexCmp_swap : ∀ xs ys : List NTok, lexCmp xs ys = (lexCmp ys xs).swap
  | [], [] => rfl
  | [], _ :: _ => rfl
  | _ :: _, [] => rfl
  | a :: as, b :: bs => by
      rw [lexCmp, lexCmp, NTok.cmp_swap a b]
      cases NTok.cmp b a <;> simp [Ordering.swap, lexCmp_swap as bs]

theorem lexCmp_eq_iff : ∀ xs ys : List NTok, lexCmp xs ys = .eq ↔ xs = ys
  | [], [] => by simp [lexCmp]
  | [], _ :: _ => by simp [lexCmp]
  | _ :: _, [] => by simp [lexCmp]
  | a :: as, b :: bs => by
      rw [lexCmp]
      cases h : NTok.cmp a b with
      | eq =>
          have hab := (NTok.cmp_eq_iff a b).mp h
          simp [hab, lexCmp_eq_iff as bs]
      | lt =>
          constructor
          · intro hc; exact Ordering.noConfusion hc
          · intro he
            injection he with h1 _
            rw [h1, (NTok.cmp_eq_iff b b).mpr rfl] at h
            exact Ordering.noConfusion h
      | gt =>
          constructor
          · intro hc; exact Ordering.noConfusion hc
          · intro he
            injection he with h1 _
            rw [h1, (NTok.cmp_eq_iff b b).mpr rfl] at h
            exact Ordering.noConfusion h

theorem lexCmp_lt_trans : ∀ xs ys zs : List NTok,
    lexCmp xs ys = .lt → lexCmp ys zs = .lt → lexCmp xs zs = .lt
  | [], [], _ => by intro h1 _; exact absurd h1 (by decide)
  | [], b :: bs, [] => by intro _ h2; simp [lexCmp] at h2
  | [], _ :: _, _ :: _ => by intro _ _; rfl
  | _ :: _, [], _ => by intro h1 _; simp [lexCmp] at h1
  | _ :: _, _ :: _, [] => by intro _ h2; simp [lexCmp] at h2
  | a :: as, b :: bs, c :: cs => by
      intro h1 h2
      rw [lexCmp] at h1 h2 ⊢
      cases hab : NTok.cmp a b with
      | gt => rw [hab] at h1; exact Ordering.noConfusion h1
      | lt =>
          cases hbc : NTok.cmp b c with
          | gt => rw [hbc] at h2; exact Ordering.noConfusion h2
          | lt => rw [NTok.cmp_lt_trans hab hbc]
          | eq =>
              have hb := (NTok.cmp_eq_iff b c).mp hbc
              rw [← hb, hab]
      | eq =>
          have ha := (NTok.cmp_eq_iff a b).mp hab
          rw [hab] at h1
          cases hbc : NTok.cmp b c with
          | gt => rw [hbc] at h2; exact Ordering.noConfusion h2
          | lt => rw [ha, hbc]
          | eq =>
              rw [hbc] at h2
              rw [ha, hbc]
              exact lexCmp_lt_trans as bs cs h1 h2

theorem localeCompareModel_swap (a b : String) :
    localeCompareModel a b = -localeCompareModel b a := by
  unfold localeCompareModel
  rw [lexCmp_swap (natKey a) (natKey b)]
  cases lexCmp (natKey b) (natKey a) <;> rfl

theorem localeCompareModel_zero_iff (a b : String) :
    localeCompareModel a b = 0 ↔ natKey a = natKey b := by
  unfold localeCompareModel
  cases h : lexCmp (natKey a) (natKey b) with
  | lt =>
      constructor
      · intro h0; exact absurd h0 (by decide)
      · intro he; rw [(lexCmp_eq_iff _ _).mpr he] at h; exact Ordering.noConfusion h
  | eq => simp [(lexCmp_eq_iff _ _).mp h]
  | gt =>
      constructor
      · intro h0; exact absurd h0 (by decide)
      · intro he; rw [(lexCmp_eq_iff _ _).mpr he] at h; exact Ordering.noConfusion h

theorem localeCompareModel_neg_iff (a b : String) :
    localeCompareModel a b < 0 ↔ lexCmp (natKey a) (natKey b) = .lt := by
  unfold localeCompareModel
  cases h : lexCmp (natKey a) (natKey b) with
  | lt => exact ⟨fun _ => rfl, fun _ => by decide⟩
  | eq => exact ⟨fun hc => absurd hc (by decide), fun hc => Ordering.noConfusion hc⟩
  | gt => exact ⟨fun hc => absurd hc (by decide), fun hc => Ordering.noConfusion hc⟩

theorem localeCompareModel_neg_trans {a b c : String}
    (h1 : localeCompareModel a b < 0) (h2 : localeCompareModel b c < 0) :
    localeCompareModel a c < 0 := by
  rw [localeCompareModel_neg_iff] at h1 h2 ⊢
  exact lexCmp_lt_trans _ _ _ h1 h2

theorem cmpKeys_pp {props : List String} {a b : String}
    (hA : orderMapGet props a ≠ -1) (hB : orderMapGet props b ≠ -1) :
    cmpKeys props a b = orderMapGet props a - orderMapGet props b := by
  simp only [cmpKeys]
  rw [if_pos ⟨hA, hB⟩]

theorem cmpKeys_pn {props : List String} {a b : String}
    (hA : orderMapGet props a ≠ -1) (hB : orderMapGet props b = -1) :
    cmpKeys props a b = -1 := by
  simp only [cmpKeys]
  rw [if_neg (fun h => h.2 hB), if_pos hA]

theorem cmpKeys_np {props : List String} {a b : String}
    (hA : orderMapGet props a = -1) (hB : orderMapGet props b ≠ -1) :
    cmpKeys props a b = 1 := by
  simp only [cmpKeys]
  rw [if_neg (fun h => h.1 hA), if_neg (not_not_intro hA), if_pos hB]

theorem cmpKeys_nn {props : List String} {a b : String}
    (hA : orderMapGet props a = -1) (hB : orderMapGet props b = -1) :
    cmpKeys props a b = localeCompareModel a b := by
  simp only [cmpKeys]
  rw [if_neg (fun h => h.1 hA), if_neg (not_not_intro hA), if_neg (not_not_intro hB)]

theorem cmpKeys_swap (props : List String) (a b : String) :
    cmpKeys props a b = -cmpKeys props b a := by
  by_cases hA : orderMapGet props a = -1 <;> by_cases hB : orderMapGet props b = -1
  · rw [cmpKeys_nn hA hB, cmpKeys_nn hB hA, localeCompareModel_swap]
  · rw [cmpKeys_np hA hB, cmpKeys_pn hB hA]; rfl
  · rw [cmpKeys_pn hA hB, cmpKeys_np hB hA]
  · rw [cmpKeys_pp hA hB, cmpKeys_pp hB hA]; omega

theorem cmpKeys_tie_congr {props : List String} {a b : String}
    (h : cmpKeys props a b = 0) (c : String) :
    cmpKeys props a c = cmpKeys props b c := by
  by_cases hA : orderMapGet props a = -1 <;> by_cases hB : orderMapGet props b = -1
  · rw [cmpKeys_nn hA hB] at h
    have hk := (localeCompareModel_zero_iff a b).mp h
    by_cases hC : orderMapGet props c = -1
    · rw [cmpKeys_nn hA hC, cmpKeys_nn hB hC]
      unfold localeCompareModel
      rw [hk]
    · rw [cmpKeys_np hA hC, cmpKeys_np hB hC]
  · rw [cmpKeys_np hA hB] at h; exact absurd h (by decide)
  · rw [cmpKeys_pn hA hB] at h; exact absurd h (by decide)
  · rw [cmpKeys_pp hA hB] at h
    have heq : orderMapGet props a = orderMapGet props b := by omega
    by_cases hC : orderMapGet props c = -1
    · rw [cmpKeys_pn hA hC, cmpKeys_pn hB hC]
    · rw [cmpKeys_pp hA hC, cmpKeys_pp hB hC, heq]

theorem cmpKeys_lt_trans {props : List String} {a b c : String}
    (h1 : cmpKeys props a b < 0) (h2 : cmpKeys props b c < 0) :
    cmpKeys props a c < 0 := by
  by_cases hA : orderMapGet props a = -1 <;> by_cases hB : orderMapGet props b = -1 <;>
    by_cases hC : orderMapGet props c = -1
  · rw [cmpKeys_nn hA hB] at h1
    rw [cmpKeys_nn hB hC] at h2
    rw [cmpKeys_nn hA hC]
    exact localeCompareModel_neg_trans h1 h2
  · rw [cmpKeys_np hB hC] at h2; exact absurd h2 (by decide)
  · rw [cmpKeys_np hA hB] at h1; exact absurd h1 (by decide)
  · rw [cmpKeys_np hA hB] at h1; exact absurd h1 (by decide)
  · rw [cmpKeys_pn hA hC]; decide
  · rw [cmpKeys_np hB hC] at h2; exact absurd h2 (by decide)
  · rw [cmpKeys_pn hA hC]; decide
  · rw [cmpKeys_pp hA hB] at h1
    rw [cmpKeys_pp hB hC] at h2
    rw [cmpKeys_pp hA hC]
    omega

theorem cmpKeys_le_total (props : List String) (a b : String) :
    cmpKeys props a b ≤ 0 ∨ cmpKeys props b a ≤ 0 := by
  have h := cmpKeys_swap props a b
  omega

theorem cmpKeys_le_trans {props : List String} {a b c : String}
    (h1 : cmpKeys props a b ≤ 0) (h2 : cmpKeys props b c ≤ 0) :
    cmpKeys props a c ≤ 0 := by
  rcases lt_or_eq_of_le h1 with hl1 | he1
  · rcases lt_or_eq_of_le h2 with hl2 | he2
    · exact le_of_lt (cmpKeys_lt_trans hl1 hl2)
    · have hcb : cmpKeys props c b = 0 := by
        have := cmpKeys_swap props b c; omega
      have hca := cmpKeys_tie_congr hcb a
      have hs1 := cmpKeys_swap props a c
      have hs2 := cmpKeys_swap props a b
      omega
  · rw [cmpKeys_tie_congr he1 c]
    exact h2

/-! ### C2: the comparator is not a strict total order, but a total preorder -/

/-- C2 (counterexample): the claim that for any two entries with distinct
path strings exactly one of (a before b) or (b before a) holds is false:
the paths `"a"` and `"A"` are distinct, yet the case-insensitive
comparison ties them, so neither comes before the other under the
comparator built from the source's `orderedProperties`. -/
theorem C2_not_strict_on_distinct_paths :
    ("a" : String) ≠ "A" ∧
    ¬ keyBefore orderedProperties "a" "A" ∧
    ¬ keyBefore orderedProperties "A" "a" := by
  refine ⟨by decide, ?_, ?_⟩ <;> · unfold keyBefore; decide

/-- C2 (amended): the comparator is a total preorder rather than a strict
total order on distinct paths: it is transitive, any two entries are
comparable up to ties, and exactly one direction holds precisely when the
comparator does not tie them (distinct paths can tie, e.g. paths equal up
to letter case or numeric formatting). -/
theorem C2_comparator_total_preorder :
    (∀ (props : List String) (a b c : String),
        keyBefore props a b → keyBefore props b c → keyBefore props a c) ∧
    (∀ (props : List String) (a b : String),
        keyBefore props a b ∨ keyBefore props b a ∨ cmpKeys props a b = 0) ∧
    (∀ (props : List String) (a b : String), cmpKeys props a b ≠ 0 →
        (keyBefore props a b ↔ ¬ keyBefore props b a)) := by
  refine ⟨fun props a b c h1 h2 => cmpKeys_lt_trans h1 h2, ?_, ?_⟩
  · intro props a b
    unfold keyBefore
    have h := cmpKeys_swap props a b
    omega
  · intro props a b hne
    unfold keyBefore
    have h := cmpKeys_swap props a b
    omega

/-- C2 (witness): for the comparator-distinguished pair `alpha2`,
`alpha10`, exactly one direction holds. -/
theorem C2_comparator_witness :
    keyBefore ["title"] "alpha2" "alpha10" ↔ ¬ keyBefore ["title"] "alpha10" "alpha2" :=
  C2_comparator_total_preorder.2.2 ["title"] "alpha2" "alpha10" (by decide)

/-! ### C3: the ordering produced by orderMetadata -/

theorem recordInsert_keys (r : List (String × Json)) (k : String) (v : Json) :
    (recordInsert r k v).map Prod.fst = r.map Prod.fst ∨
    (recordInsert r k v).map Prod.fst = r.map Prod.fst ++ [k] := by
  unfold recordInsert
  split
  · left
    rw [List.map_map]
    apply List.map_congr_left
    intro p _
    by_cases hp : p.1 = k
    · simp [Function.comp, hp]
    · simp [Function.comp, hp]
  · right; simp

theorem foldl_recordInsert_keys_sublist :
    ∀ (l r : List (String × Json)),
      List.Sublist ((l.foldl (fun r p => recordInsert r p.1 p.2) r).map Prod.fst)
        (r.map Prod.fst ++ l.map Prod.fst)
  | [], r => by simp
  | p :: rest, r => by
      rw [List.foldl_cons]
      have h := foldl_recordInsert_keys_sublist rest (recordInsert r p.1 p.2)
      rcases recordInsert_keys r p.1 p.2 with hk | hk
      · refine h.trans ?_
        rw [hk]
        simp only [List.map_cons]
        exact (List.sublist_cons_self p.1 (rest.map Prod.fst)).append_left _
      · refine h.trans ?_
        rw [hk, List.append_assoc]
        simp only [List.map_cons, List.singleton_append]
        exact List.Sublist.refl _

theorem recordInsert_not_mem (r : List (String × Json)) (k : String) (v : Json)
    (h : k ∉ r.map Prod.fst) : recordInsert r k v = r ++ [(k, v)] := by
  unfold recordInsert
  rw [if_neg]
  intro hc
  rcases List.any_eq_true.mp hc with ⟨p, hp, he⟩
  exact h (of_decide_eq_true he ▸ List.mem_map_of_mem Prod.fst hp)

theorem foldl_recordInsert_nodup :
    ∀ (l r : List (String × Json)),
      (l.map Prod.fst).Nodup → (∀ k ∈ l.map Prod.fst, k ∉ r.map Prod.fst) →
      l.foldl (fun r p => recordInsert r p.1 p.2) r = r ++ l
  | [], r, _, _ => by simp
  | p :: rest, r, hnd, hdisj => by
      rw [List.foldl_cons]
      have hpk : p.1 ∉ r.map Prod.fst := hdisj p.1 (by simp)
      rw [recordInsert_not_mem r p.1 p.2 hpk]
      simp only [List.map_cons] at hnd
      rcases List.nodup_cons.mp hnd with ⟨hp1, hnd'⟩
      have hdisj' : ∀ k ∈ rest.map Prod.fst, k ∉ (r ++ [(p.1, p.2)]).map Prod.fst := by
        intro k hk
        rw [List.map_append]
        intro hc
        rcases List.mem_append.mp hc with hc | hc
        · exact hdisj k (by simp [hk]) hc
        · simp at hc
          exact hp1 (hc ▸ hk)
      rw [foldl_recordInsert_nodup rest (r ++ [(p.1, p.2)]) hnd' hdisj']
      simp

/-- The enumeration order changes nothing when no key is an array
index. -/
theorem jsEnumOrder_no_index (r : List (String × Json))
    (h : ∀ k ∈ r.map Prod.fst, isArrayIndex k = false) : jsEnumOrder r = r := by
  unfold jsEnumOrder
  have h1 : r.filter (fun p => isArrayIndex p.1) = [] := by
    rw [List.filter_eq_nil_iff]
    intro a ha hc
    have hfa := h a.1 (List.mem_map_of_mem Prod.fst ha)
    rw [hfa] at hc
    exact absurd hc (by decide)
  have h2 : r.filter (fun p => !isArrayIndex p.1) = r := by
    rw [List.filter_eq_self]
    intro a ha
    simp [h a.1 (List.mem_map_of_mem Prod.fst ha)]
  rw [h1, h2]
  rfl

/-- The enumeration order is a permutation of the built record. -/
theorem jsEnumOrder_perm (r : List (String × Json)) :
    List.Perm (jsEnumOrder r) r := by
  unfold jsEnumOrder
  refine List.Perm.trans ?_ (List.filter_append_perm (fun p => isArrayIndex p.1) r)
  exact List.Perm.append_right _ (List.perm_insertionSort _ _)

/-- The keys of the built metadata record are pairwise nondecreasing
under the sort comparator. -/
theorem buildMetadataRecord_keys_pairwise (props : List String)
    (entries : List (String × Json)) :
    ((buildMetadataRecord props entries).map Prod.fst).Pairwise
      (fun x y => cmpKeys props x y ≤ 0) := by
  unfold buildMetadataRecord sortedMetadata
  haveI : IsTotal (String × Json) (fun a b => cmpKeys props a.1 b.1 ≤ 0) :=
    ⟨fun a b => cmpKeys_le_total props a.1 b.1⟩
  haveI : IsTrans (String × Json) (fun a b => cmpKeys props a.1 b.1 ≤ 0) :=
    ⟨fun a b c h1 h2 => cmpKeys_le_trans h1 h2⟩
  have hsorted := List.sorted_insertionSort
    (fun (a b : String × Json) => cmpKeys props a.1 b.1 ≤ 0) entries
  have hmap : ((List.insertionSort
      (fun (a b : String × Json) => cmpKeys props a.1 b.1 ≤ 0) entries).map
        Prod.fst).Pairwise (fun x y => cmpKeys props x y ≤ 0) :=
    List.Pairwise.map Prod.fst (fun a b h => h) hsorted
  have hsub := foldl_recordInsert_keys_sublist
    (List.insertionSort (fun (a b : String × Json) => cmpKeys props a.1 b.1 ≤ 0) entries) []
  exact List.Pairwise.sublist (by simpa using hsub) hmap

/-- Every key of the built metadata record is a key of the input
entries. -/
theorem buildMetadataRecord_keys_subset (props : List String)
    (entries : List (String × Json)) :
    ∀ k ∈ (buildMetadataRecord props entries).map Prod.fst,
      k ∈ entries.map Prod.fst := by
  intro k hk
  unfold buildMetadataRecord sortedMetadata at hk
  have hsub := foldl_recordInsert_keys_sublist
    (List.insertionSort (fun (a b : String × Json) => cmpKeys props a.1 b.1 ≤ 0) entries) []
  have hk2 : k ∈ (List.insertionSort
      (fun (a b : String × Json) => cmpKeys props a.1 b.1 ≤ 0) entries).map Prod.fst :=
    (by simpa using hsub : List.Sublist _ _).subset hk
  exact (((List.perm_insertionSort _ entries).map Prod.fst).mem_iff).mp hk2

/-- When no entry path is array-index-like, the enumeration view keeps
the comparator order of the built record. -/
theorem orderMetadata_keys_pairwise (props : List String) (entries : List (String × Json))
    (hidx : ∀ k ∈ entries.map Prod.fst, isArrayIndex k = false) :
    ((orderMetadata props entries).map Prod.fst).Pairwise
      (fun x y => cmpKeys props x y ≤ 0) := by
  unfold orderMetadata
  rw [jsEnumOrder_no_index _
    (fun k hk => hidx k (buildMetadataRecord_keys_subset props entries k hk))]
  exact buildMetadataRecord_keys_pairwise props entries

/-- When the entry paths are distinct (as they are for a flattened note),
ordering permutes the entries and nothing else. -/
theorem orderMetadata_perm (props : List String) (entries : List (String × Json))
    (hnd : (entries.map Prod.fst).Nodup) :
    List.Perm (orderMetadata props entries) entries := by
  unfold orderMetadata
  refine (jsEnumOrder_perm _).trans ?_
  unfold buildMetadataRecord sortedMetadata
  have hperm : List.Perm (List.insertionSort
      (fun (a b : String × Json) => cmpKeys props a.1 b.1 ≤ 0) entries) entries :=
    List.perm_insertionSort _ entries
  have hnd' : ((List.insertionSort
      (fun (a b : String × Json) => cmpKeys props a.1 b.1 ≤ 0) entries).map Prod.fst).Nodup :=
    ((hperm.map Prod.fst).nodup_iff).mpr hnd
  rw [foldl_recordInsert_nodup _ [] hnd' (by simp)]
  simpa using hperm

/-- C3 (counterexample): the claim that priority-matching entries always
come first is false: the result record is consumed through
`Object.entries`, whose enumeration order hoists array-index-like keys
ahead of everything else.  With priority list `["title"]` and entries
with paths `title` and `0`, the output enumerates `0` — a non-priority
path — before the priority path `title`. -/
theorem C3_array_index_path_hoisted :
    (orderMetadata ["title"] [("title", Json.null), ("0", Json.null)]).map Prod.fst
        = ["0", "title"] ∧
    orderMapGet ["title"] "title" ≠ -1 ∧
    orderMapGet ["title"] "0" = -1 :=
  ⟨by decide, by decide, by decide⟩

/-- C3 (amended): for entry sets none of whose paths is array-index-like
(so that `Object.entries` enumeration preserves the built order), every
earlier/later pair of output keys is either two priority keys in
priority-index order, a priority key before a non-priority key, or two
non-priority keys in case-insensitive natural order — i.e. priority
entries come first, in the order given by the priority list, and the rest
follow sorted by natural comparison.  On key-distinct inputs the output
is a permutation of the input.  For the spec's concrete example the
ordered key sequence is `title, createdTimestampUsec, alpha2, alpha10,
zeta`. -/
theorem C3_priority_first_then_natural :
    (∀ (props : List String) (entries : List (String × Json)),
      ((∀ k ∈ entries.map Prod.fst, isArrayIndex k = false) →
        ((orderMetadata props entries).map Prod.fst).Pairwise (fun x y =>
          (orderMapGet props x ≠ -1 ∧ orderMapGet props y ≠ -1 ∧
            orderMapGet props x ≤ orderMapGet props y) ∨
          (orderMapGet props x ≠ -1 ∧ orderMapGet props y = -1) ∨
          (orderMapGet props x = -1 ∧ orderMapGet props y = -1 ∧
            localeCompareModel x y ≤ 0))) ∧
      ((entries.map Prod.fst).Nodup → List.Perm (orderMetadata props entries) entries)) ∧
    (orderMetadata ["title", "createdTimestampUsec"]
        [("zeta", Json.null), ("title", Json.null), ("createdTimestampUsec", Json.null),
         ("alpha2", Json.null), ("alpha10", Json.null)]).map Prod.fst =
      ["title", "createdTimestampUsec", "alpha2", "alpha10", "zeta"] := by
  refine ⟨fun props entries => ⟨fun hidx => ?_, orderMetadata_perm props entries⟩, by decide⟩
  refine List.Pairwise.imp ?_ (orderMetadata_keys_pairwise props entries hidx)
  intro x y h
  by_cases hx : orderMapGet props x = -1 <;> by_cases hy : orderMapGet props y = -1
  · exact .inr (.inr ⟨hx, hy, by rw [cmpKeys_nn hx hy] at h; exact h⟩)
  · rw [cmpKeys_np hx hy] at h; exact absurd h (by decide)
  · exact .inr (.inl ⟨hx, hy⟩)
  · exact .inl ⟨hx, hy, by rw [cmpKeys_pp hx hy] at h; omega⟩

/-- C3 (witness): ordering a concrete key-distinct entry list permutes
it. -/
theorem C3_priority_first_witness :
    List.Perm (orderMetadata ["title"] [("b", Json.null), ("a", Json.null)])
      [("b", Json.null), ("a", Json.null)] :=
  (C3_priority_first_then_natural.1 ["title"]
    [("b", Json.null), ("a", Json.null)]).2 (by decide)

/-! ### C4: phone formatting -/

theorem replaceFirstTenDigits_no_run :
    ∀ l : List Char, hasTenDigitRun l = false → replaceFirstTenDigits l = l
  | [] => fun _ => rfl
  | c :: cs => fun h => by
      rw [hasTenDigitRun] at h
      rcases Bool.or_eq_false_iff.mp h with ⟨h1, h2⟩
      rw [replaceFirstTenDigits, if_neg (of_decide_eq_false h1)]
      rw [replaceFirstTenDigits_no_run cs h2]

/-- C4 (counterexample): the claim that a valid number under a non-default
country calling code is passed through unchanged is false: the valid UK
number `+447911123456` is not returned as-is — the second `replace` still
fires on its first run of ten consecutive digits and rewrites the number
in place. -/
theorem C4_foreign_number_not_passthrough :
    formatPhoneNumber ⟨true, "+447911123456"⟩ = some "+(447) 911-123456" ∧
    formatPhoneNumber ⟨true, "+447911123456"⟩ ≠ some "+447911123456" :=
  ⟨by decide, by decide⟩

/-- C4 (amended): an invalid phone string contributes no entry to the
phones list (dropped, not null); a valid number carrying the default `+1`
calling code has that prefix stripped and is rendered `(NNN) NNN-NNNN`;
but a valid number under another calling code is passed through unchanged
only when its normalized form contains no run of ten consecutive digits —
otherwise the leftmost such run is rewritten `(NNN) NNN-NNNN` in place. -/
theorem C4_phone_formatting :
    (∀ (pre post : List PhoneParseResult) (res : PhoneParseResult),
        res.isValid = false → phonesOf (pre ++ res :: post) = phonesOf (pre ++ post)) ∧
    (∀ d0 d1 d2 d3 d4 d5 d6 d7 d8 d9 : Char,
        d0.isDigit = true → d1.isDigit = true → d2.isDigit = true →
        d3.isDigit = true → d4.isDigit = true → d5.isDigit = true →
        d6.isDigit = true → d7.isDigit = true → d8.isDigit = true →
        d9.isDigit = true →
        formatPhoneNumber
            ⟨true, ⟨'+' :: '1' :: [d0, d1, d2, d3, d4, d5, d6, d7, d8, d9]⟩⟩ =
          some ⟨['(', d0, d1, d2, ')', ' ', d3, d4, d5, '-', d6, d7, d8, d9]⟩) ∧
    (∀ res : PhoneParseResult, res.isValid = true →
        stripUSPrefix res.phoneNumber.data = res.phoneNumber.data →
        hasTenDigitRun res.phoneNumber.data = false →
        formatPhoneNumber res = some res.phoneNumber) := by
  refine ⟨?_, ?_, ?_⟩
  · intro pre post res h
    unfold phonesOf
    simp [List.filterMap_append, formatPhoneNumber, h]
  · intro d0 d1 d2 d3 d4 d5 d6 d7 d8 d9 h0 h1 h2 h3 h4 h5 h6 h7 h8 h9
    simp [formatPhoneNumber, stripUSPrefix, replaceFirstTenDigits, formatTenRun,
      h0, h1, h2, h3, h4, h5, h6, h7, h8, h9]
  · intro res hv hstrip hrun
    unfold formatPhoneNumber
    rw [if_neg (by simp [hv]), hstrip, replaceFirstTenDigits_no_run _ hrun]

/-- C4 (witness): the valid US number `+15551234567` renders as
`(555) 123-4567`. -/
theorem C4_phone_formatting_witness :
    formatPhoneNumber ⟨true, "+15551234567"⟩ = some "(555) 123-4567" :=
  C4_phone_formatting.2.1 '5' '5' '5' '1' '2' '3' '4' '5' '6' '7'
    (by decide) (by decide) (by decide) (by decide) (by decide) (by decide)
    (by decide) (by decide) (by decide) (by decide)

end Scripts
